import Mathlib

/-!
# Verification of the Voice Emotion Analysis pipeline

A shallow embedding of the algorithmic core of the repository
(`audio_processing/preprocess.py`, `emotion_model/model.py`, `app.py`)
over exact rationals, together with theorems settling the frozen claims.

Conventions of the embedding:
* Python floats are modelled as exact rationals (`ℚ`); `round(x, n)` is
  modelled as exact round-half-to-even at `n` decimal digits, and `int(x)`
  as truncation toward zero.
* Waveforms are `List ℚ`; numpy slicing/padding becomes `drop`/`take`/
  `replicate`.
* Python dicts (which preserve insertion order, update keys in place and
  append new keys) are association lists with `dictGet`/`dictSet`.
* The `while` loop of `_split_into_chunks` is embedded with explicit fuel
  so that its (non-)termination is a statable property: `none` means the
  loop has not finished within the given number of iterations.
-/

/-- Python `round` half-to-even on an exact rational, to an integer. -/
def roundHalfEven (q : ℚ) : ℤ :=
  if q - ⌊q⌋ < 1/2 then ⌊q⌋
  else if 1/2 < q - ⌊q⌋ then ⌊q⌋ + 1
  else if 2 ∣ ⌊q⌋ then ⌊q⌋ else ⌊q⌋ + 1

/-- Python `round(x, 2)` modelled exactly. -/
def round2 (q : ℚ) : ℚ := (roundHalfEven (100 * q) : ℚ) / 100

/-- Python `round(x, 4)` modelled exactly. -/
def round4 (q : ℚ) : ℚ := (roundHalfEven (10000 * q) : ℚ) / 10000

/-- Python `int(x)`: truncation toward zero. -/
def pyInt (q : ℚ) : ℤ := if 0 ≤ q then ⌊q⌋ else -⌊-q⌋

/-- Python dict lookup `d[k]` / `d.get(k, v0)` on an ordered association
list: the first matching key wins. -/
def dictGet {β : Type} (d : List (String × β)) (k : String) (v0 : β) : β :=
  match d with
  | [] => v0
  | p :: rest => if p.1 = k then p.2 else dictGet rest k v0

/-- Python dict assignment `d[k] = v`: an existing key is updated in place
(keeping its position), a new key is appended at the end. -/
def dictSet {β : Type} (d : List (String × β)) (k : String) (v : β) :
    List (String × β) :=
  match d with
  | [] => [(k, v)]
  | p :: rest => if p.1 = k then (k, v) :: rest else p :: dictSet rest k v

/-- One comparison step of Python `max(..., key=lambda x: x[1])` and of
`np.argmax`: the incumbent is replaced only by a strictly larger value, so
the first maximal element wins. -/
def pickMax {α : Type} (acc q : α × ℚ) : α × ℚ :=
  if acc.2 < q.2 then q else acc

/-- Modelled from Python `max(items, key=lambda x: x[1])`: the first item
with maximal second component.  Python raises on an empty sequence; the
embedding returns the supplied default there (all call sites in the code
are guarded or act on provably non-empty lists). -/
def pyMaxBySnd {α : Type} (dflt : α × ℚ) : List (α × ℚ) → α × ℚ
  | [] => dflt
  | p :: rest => rest.foldl pickMax p

/-- Modelled from `np.argmax`: the index of the first occurrence of the
maximum (0 on the empty list, where numpy raises). -/
def npArgmax (l : List ℚ) : ℕ := (pyMaxBySnd (0, 0) l.enum).1

/-- Modelled from `np.mean` on a list of rationals. -/
def npMean (l : List ℚ) : ℚ := l.sum / l.length

/-! ## Segmenter: `AudioProcessor._split_into_chunks` (preprocess.py 73-111) -/

/-- A chunk record as built by `_split_into_chunks`. -/
structure Chunk where
  audio_data : List ℚ
  sample_rate : ℕ
  start_time : ℚ
  end_time : ℚ
  duration : ℚ
deriving DecidableEq

/-- The body of one iteration of the chunking loop at position `pos`
(preprocess.py 82-107): slice `audio_data[start_sample:end_sample]`,
zero-pad a short tail on the right, and attach rounded timestamps computed
from the unpadded sample indices. -/
def mkChunk (cs sr : ℕ) (audio : List ℚ) (pos : ℕ) : Chunk :=
  let total := audio.length
  let endSample := min (pos + cs) total
  let raw := (audio.drop pos).take (endSample - pos)
  let chunk_audio := raw ++ List.replicate (cs - raw.length) 0
  let start_time : ℚ := (pos : ℚ) / (sr : ℚ)
  let end_time : ℚ := (endSample : ℚ) / (sr : ℚ)
  { audio_data := chunk_audio
    sample_rate := sr
    start_time := round2 start_time
    end_time := round2 end_time
    duration := round2 (end_time - start_time) }

/-- The `while current_position < total_samples` loop of
`_split_into_chunks`, with explicit fuel: `none` means the loop has not
terminated within `fuel` iterations. -/
def splitLoop (cs sr : ℕ) (audio : List ℚ) : ℕ → ℕ → Option (List Chunk)
  | fuel, pos =>
    if pos < audio.length then
      match fuel with
      | 0 => none
      | fuel' + 1 =>
        (splitLoop cs sr audio fuel' (min (pos + cs) audio.length)).map
          fun rest => mkChunk cs sr audio pos :: rest
    else some []

/-- `chunk_samples = int(self.chunk_duration * sample_rate)`
(preprocess.py 75). -/
def chunkSamples (chunk_duration : ℚ) (sample_rate : ℕ) : ℕ :=
  (pyInt (chunk_duration * sample_rate)).toNat

/-- `_split_into_chunks`, run with enough fuel for one loop iteration per
input sample (sufficient whenever `chunk_samples ≥ 1`; the loop diverges
when `chunk_samples = 0` on non-empty input, reflected by `none`). -/
def splitIntoChunks (cd : ℚ) (sr : ℕ) (audio : List ℚ) :
    Option (List Chunk) :=
  splitLoop (chunkSamples cd sr) sr audio audio.length 0

/-- Number of chunks the loop emits from position `pos`. -/
def numChunksFrom (cs total pos : ℕ) : ℕ :=
  if total ≤ pos then 0 else (total - pos - 1) / cs + 1

/-! ## Classifier: `EmotionDetector` (model.py) -/

/-- The fallback label set, in declaration order (model.py 29). -/
def fallbackEmotions : List String :=
  ["neutral", "happy", "sad", "angry", "fearful", "surprised"]

/-- The pretrained model's label set, in declaration order (model.py 22). -/
def modelEmotions : List String :=
  ["angry", "calm", "disgust", "fearful", "happy", "neutral", "sad", "surprised"]

/-- The feature dictionary of `_extract_features` (model.py 174-179). -/
structure FeatureVector where
  energy : ℚ
  zero_crossing_rate : ℚ
  pitch_mean : ℚ
  pitch_std : ℚ
deriving DecidableEq

/-- Modelled from the spec: `librosa.feature.zero_crossing_rate` is
external library code (not in this repository); per §4.2 and the glossary
it is the fraction of consecutive sample pairs with opposite sign,
averaged over short frames.  We model it frame-free as that fraction over
the whole chunk; every framed average of the same pair predicate is zero
exactly when this is zero, which is all the claims use. -/
def zcrModel (audio : List ℚ) : ℚ :=
  (((audio.zip audio.tail).countP
      fun p => decide (p.1 < 0) != decide (p.2 < 0) : ℕ) : ℚ) / audio.length

/-- `_extract_features` (model.py 150-179).  The pitch-candidate list
produced by `librosa.piptrack` (the per-frame voiced pitches, model.py
160-166) and `np.std` are external library calls and enter as parameters:
the repository's own code is the energy formula, the empty-list guards
and the assembly of the dictionary.  Per spec §4.2 the pitch list is empty
for a silent chunk (no frame is voiced). -/
def extractFeatures (stdFn : List ℚ → ℚ) (pitchValues : List ℚ)
    (audio : List ℚ) : FeatureVector :=
  { energy := (audio.map fun x => x * x).sum / audio.length
    zero_crossing_rate := zcrModel audio
    pitch_mean := if pitchValues.isEmpty then 0 else npMean pitchValues
    pitch_std := if pitchValues.isEmpty then 0 else stdFn pitchValues }

/-- The unnormalized rule-based scores (model.py 110-131): the score dict
is initialized to 0 on every fallback label, then one branch of the
threshold cascade assigns its scores. -/
def rawScores (f : FeatureVector) : List (String × ℚ) :=
  let scores := fallbackEmotions.map fun e => (e, (0 : ℚ))
  if f.energy > 1/2 then
    if f.pitch_std > 50 then
      dictSet (dictSet scores "angry" (2/5)) "surprised" (3/10)
    else
      dictSet scores "happy" (1/2)
  else if f.energy < 1/5 then
    if f.pitch_mean < 150 then
      dictSet scores "sad" (3/5)
    else
      dictSet scores "neutral" (1/2)
  else
    let scores :=
      if f.zero_crossing_rate > 1/10 then dictSet scores "fearful" (2/5)
      else scores
    dictSet scores "neutral" (2/5)

/-- The normalization step (model.py 133-138): divide by the sum when it
is positive, otherwise set `neutral = 1.0`. -/
def normalizeScores (scores : List (String × ℚ)) : List (String × ℚ) :=
  let total := (scores.map Prod.snd).sum
  if 0 < total then scores.map fun p => (p.1, p.2 / total)
  else dictSet scores "neutral" 1

/-- The prediction dictionary returned by the classifier. -/
structure PredictionResult where
  emotion : String
  confidence : ℚ
  scores : List (String × ℚ)
deriving DecidableEq

/-- `_predict_with_features` after feature extraction (model.py 104-148):
score, normalize, take the arg-max label (Python `max` keeps the first
maximal item in dict insertion order), look up its probability and round
it to 4 decimals. -/
def classifyFeatures (f : FeatureVector) : PredictionResult :=
  let scores := normalizeScores (rawScores f)
  let predicted := (pyMaxBySnd ("", 0) scores).1
  let confidence := dictGet scores predicted 0
  { emotion := predicted
    confidence := round4 confidence
    scores := scores }

/-- `_predict_with_features` in full (model.py 96-148): extract features,
then classify. -/
def predictWithFeatures (stdFn : List ℚ → ℚ) (pitchValues : List ℚ)
    (audio : List ℚ) : PredictionResult :=
  classifyFeatures (extractFeatures stdFn pitchValues audio)

/-- `_predict_with_model` after the external transformer produced its
softmax probabilities (model.py 78-90): `np.argmax` picks the first
maximal probability, the label comes from the model's label list, the
confidence is that probability rounded to 4 decimals, and the scores dict
zips labels with probabilities. -/
def predictWithModel (probs : List ℚ) : PredictionResult :=
  let idx := npArgmax probs
  { emotion := modelEmotions.getD idx ""
    confidence := round4 (probs.getD idx 0)
    scores := modelEmotions.zip probs }

/-! ## Aggregator: `app.py` -/

/-- One entry of the `results` list built in `analyze_audio`
(app.py 54-60), restricted to the fields the aggregation reads. -/
structure Prediction where
  start_time : ℚ
  end_time : ℚ
  emotion : String
  confidence : ℚ
deriving DecidableEq

/-- A change event as appended by `detect_emotion_changes` (app.py 94-99). -/
structure ChangeEvent where
  timestamp : ℚ
  from_emotion : String
  to_emotion : String
  confidence : ℚ
deriving DecidableEq

/-- The `for i in range(1, len(results))` loop of `detect_emotion_changes`
(app.py 90-100), carrying the running `previous_emotion`. -/
def detectLoop (prev : String) : List Prediction → List ChangeEvent
  | [] => []
  | r :: rest =>
    if r.emotion ≠ prev then
      { timestamp := r.start_time
        from_emotion := prev
        to_emotion := r.emotion
        confidence := r.confidence } :: detectLoop r.emotion rest
    else detectLoop prev rest

/-- `detect_emotion_changes` (app.py 81-102). -/
def detect_emotion_changes (results : List Prediction) : List ChangeEvent :=
  if results.length < 2 then []
  else
    match results with
    | [] => []
    | r :: rest => detectLoop r.emotion rest

/-- The accumulator of the statistics loop (app.py 106-116). -/
structure StatsAcc where
  counts : List (String × ℕ)
  durations : List (String × ℚ)
  total : ℚ
deriving DecidableEq

/-- One iteration of the statistics loop (app.py 110-116). -/
def statsStep (acc : StatsAcc) (r : Prediction) : StatsAcc :=
  let d := r.end_time - r.start_time
  { counts := dictSet acc.counts r.emotion (dictGet acc.counts r.emotion 0 + 1)
    durations :=
      dictSet acc.durations r.emotion (dictGet acc.durations r.emotion 0 + d)
    total := acc.total + d }

/-- The whole statistics loop starting from empty dicts. -/
def statsFold (results : List Prediction) : StatsAcc :=
  results.foldl statsStep { counts := [], durations := [], total := 0 }

/-- The statistics dictionary returned by `calculate_statistics`
(app.py 127-133). -/
structure Statistics where
  total_duration : ℚ
  emotion_counts : List (String × ℕ)
  emotion_durations : List (String × ℚ)
  emotion_percentages : List (String × ℚ)
  dominant_emotion : String
deriving DecidableEq

/-- `calculate_statistics` (app.py 104-133): accumulate counts/durations/
total, derive percentages from the unrounded durations, pick the dominant
emotion with Python `max` over dict insertion order (`'Unknown'` on an
empty duration dict), and round durations/percentages/total to 2 decimals
for output. -/
def calculate_statistics (results : List Prediction) : Statistics :=
  let acc := statsFold results
  let percentages := acc.durations.map fun p =>
    (p.1, if 0 < acc.total then p.2 / acc.total * 100 else 0)
  let dominant :=
    if acc.durations.isEmpty then "Unknown"
    else (pyMaxBySnd ("", 0) acc.durations).1
  { total_duration := round2 acc.total
    emotion_counts := acc.counts
    emotion_durations := acc.durations.map fun p => (p.1, round2 p.2)
    emotion_percentages := percentages.map fun p => (p.1, round2 p.2)
    dominant_emotion := dominant }

/-- The error kinds of spec §7 that are fatal to an analysis. -/
inductive AnalysisError
  | UnsupportedFormat (msg : String)
  | EmptyAudio
deriving DecidableEq

/-- The post-decode portion of `AudioProcessor.process_audio`
(preprocess.py 29-43): resampling is an external library call, chunking
never raises.  The `Except` layer carries the fatal error kinds of spec §7
so that failure claims are statable; the Python code raises none of them
after decoding, so every terminating run is `ok`. -/
def processDecoded (cd : ℚ) (sr : ℕ) (audio : List ℚ) :
    Option (Except AnalysisError (List Chunk)) :=
  (splitIntoChunks cd sr audio).map Except.ok

/-- The per-chunk loop plus aggregation of the `/analyze` handler
(app.py 44-66), for an already decoded waveform and an abstract per-chunk
classifier. -/
def analyzeDecoded (classify : List ℚ → ℕ → PredictionResult) (cd : ℚ)
    (sr : ℕ) (audio : List ℚ) :
    Option (List Prediction × List ChangeEvent × Statistics) :=
  (splitIntoChunks cd sr audio).map fun chunks =>
    let results := chunks.map fun c =>
      let e := classify c.audio_data c.sample_rate
      { start_time := c.start_time
        end_time := c.end_time
        emotion := e.emotion
        confidence := e.confidence : Prediction }
    (results, detect_emotion_changes results, calculate_statistics results)

/-! ## Helper lemmas -/

theorem abs_roundHalfEven_sub (q : ℚ) : |(roundHalfEven q : ℚ) - q| ≤ 1/2 := by
  have h1 : (⌊q⌋ : ℚ) ≤ q := Int.floor_le q
  have h2 : q < (⌊q⌋ : ℚ) + 1 := Int.lt_floor_add_one q
  unfold roundHalfEven
  split_ifs with ha hb hc <;> rw [abs_le] <;> push_cast <;>
    constructor <;> linarith

theorem abs_round2_sub (q : ℚ) : |round2 q - q| ≤ 1/200 := by
  have h := abs_roundHalfEven_sub (100 * q)
  unfold round2
  have heq : (roundHalfEven (100 * q) : ℚ) / 100 - q
      = ((roundHalfEven (100 * q) : ℚ) - 100 * q) / 100 := by ring
  rw [heq, abs_div]
  have h100 : |(100 : ℚ)| = 100 := by norm_num
  rw [h100]
  linarith [div_le_div_of_nonneg_right (c := (100 : ℚ)) h (by norm_num)]

theorem round2_zero : round2 0 = 0 := by
  norm_num [round2, roundHalfEven]

/-- `k` names the label of the first maximal entry of the ordered score
list `l`: some position holds `(k, v)` with `v` maximal over the whole
list and strictly greater than every value occurring earlier.  This is the
arg-max-with-first-occurrence-tie-break contract of the spec. -/
def IsFirstMaxKey (l : List (String × ℚ)) (k : String) : Prop :=
  ∃ L₁ v L₂, l = L₁ ++ (k, v) :: L₂
    ∧ (∀ p ∈ l, p.2 ≤ v)
    ∧ (∀ p ∈ L₁, p.2 < v)

theorem foldl_pickMax_split {α : Type} :
    ∀ (l : List (α × ℚ)) (acc : α × ℚ),
      (l.foldl pickMax acc = acc ∧ ∀ q ∈ l, q.2 ≤ acc.2)
      ∨ (∃ L₁ L₂, l = L₁ ++ l.foldl pickMax acc :: L₂
          ∧ acc.2 < (l.foldl pickMax acc).2
          ∧ (∀ q ∈ L₁, q.2 < (l.foldl pickMax acc).2)
          ∧ (∀ q ∈ L₂, q.2 ≤ (l.foldl pickMax acc).2)) := by
  intro l
  induction l with
  | nil => intro acc; left; exact ⟨rfl, by simp⟩
  | cons q t ih =>
    intro acc
    simp only [List.foldl_cons]
    by_cases hq : acc.2 < q.2
    · rw [show pickMax acc q = q from by simp [pickMax, hq]]
      rcases ih q with ⟨heq, hle⟩ | ⟨L₁, L₂, hsplit, hlt, hL₁, hL₂⟩
      · right
        refine ⟨[], t, ?_, ?_, by simp, ?_⟩
        · rw [heq]; rfl
        · rw [heq]; exact hq
        · intro p hp; rw [heq]; exact hle p hp
      · right
        refine ⟨q :: L₁, L₂, ?_, ?_, ?_, hL₂⟩
        · rw [List.cons_append]
          exact congrArg (q :: ·) hsplit
        · exact lt_trans hq hlt
        · intro p hp
          rcases List.mem_cons.mp hp with h | h
          · subst h; exact hlt
          · exact hL₁ p h
    · rw [show pickMax acc q = acc from by simp [pickMax, hq]]
      push_neg at hq
      rcases ih acc with ⟨heq, hle⟩ | ⟨L₁, L₂, hsplit, hlt, hL₁, hL₂⟩
      · left
        refine ⟨heq, ?_⟩
        intro p hp
        rcases List.mem_cons.mp hp with h | h
        · subst h; exact hq
        · exact hle p h
      · right
        refine ⟨q :: L₁, L₂, ?_, hlt, ?_, hL₂⟩
        · rw [List.cons_append]
          exact congrArg (q :: ·) hsplit
        · intro p hp
          rcases List.mem_cons.mp hp with h | h
          · subst h; exact lt_of_le_of_lt hq hlt
          · exact hL₁ p h

/-- The first-maximal-element contract of `pyMaxBySnd` on non-empty lists. -/
theorem pyMaxBySnd_split {α : Type} (dflt p : α × ℚ) (rest : List (α × ℚ)) :
    ∃ L₁ L₂, p :: rest = L₁ ++ pyMaxBySnd dflt (p :: rest) :: L₂
      ∧ (∀ q ∈ p :: rest, q.2 ≤ (pyMaxBySnd dflt (p :: rest)).2)
      ∧ (∀ q ∈ L₁, q.2 < (pyMaxBySnd dflt (p :: rest)).2) := by
  have hdef : pyMaxBySnd dflt (p :: rest) = rest.foldl pickMax p := rfl
  rw [hdef]
  rcases foldl_pickMax_split rest p with ⟨heq, hle⟩ | ⟨L₁, L₂, hsplit, hlt, hL₁, hL₂⟩
  · refine ⟨[], rest, ?_, ?_, by simp⟩
    · rw [heq]; rfl
    · intro q hq
      rw [heq]
      rcases List.mem_cons.mp hq with h | h
      · subst h; exact le_refl _
      · exact hle q h
  · refine ⟨p :: L₁, L₂, ?_, ?_, ?_⟩
    · rw [List.cons_append]
      exact congrArg (p :: ·) hsplit
    · intro q hq
      rcases List.mem_cons.mp hq with h | h
      · subst h; exact le_of_lt hlt
      · rw [hsplit] at h
        rcases List.mem_append.mp h with h1 | h1
        · exact le_of_lt (hL₁ q h1)
        · rcases List.mem_cons.mp h1 with h2 | h2
          · subst h2; exact le_refl _
          · exact hL₂ q h2
    · intro q hq
      rcases List.mem_cons.mp hq with h | h
      · subst h; exact hlt
      · exact hL₁ q h

theorem pyMaxBySnd_isFirstMaxKey (dflt p : String × ℚ)
    (rest : List (String × ℚ)) :
    IsFirstMaxKey (p :: rest) (pyMaxBySnd dflt (p :: rest)).1 := by
  obtain ⟨L₁, L₂, hsplit, hle, hlt⟩ := pyMaxBySnd_split dflt p rest
  exact ⟨L₁, (pyMaxBySnd dflt (p :: rest)).2, L₂, by simpa using hsplit, hle, hlt⟩

theorem dictGet_dictSet_self {β : Type} (d : List (String × β)) (k : String)
    (v v0 : β) : dictGet (dictSet d k v) k v0 = v := by
  induction d with
  | nil => simp [dictGet, dictSet]
  | cons p rest ih =>
    by_cases h : p.1 = k
    · simp [dictGet, dictSet, h]
    · simp [dictGet, dictSet, h, ih]

theorem dictSet_ne_nil {β : Type} (d : List (String × β)) (k : String)
    (v : β) : dictSet d k v ≠ [] := by
  cases d with
  | nil => simp [dictSet]
  | cons p rest =>
    by_cases h : p.1 = k <;> simp [dictSet, h]

/-- Looking up the key of a split entry in a duplicate-free association
list returns that entry's value. -/
theorem dictGet_of_split {β : Type} :
    ∀ (L₁ : List (String × β)) (k : String) (v v0 : β) (L₂ : List (String × β)),
      ((L₁ ++ (k, v) :: L₂).map Prod.fst).Nodup →
      dictGet (L₁ ++ (k, v) :: L₂) k v0 = v := by
  intro L₁
  induction L₁ with
  | nil => intro k v v0 L₂ _; simp [dictGet]
  | cons p rest ih =>
    intro k v v0 L₂ hnd
    have hmem : k ∈ (rest ++ (k, v) :: L₂).map Prod.fst := by simp
    simp only [List.cons_append, List.map_cons, List.nodup_cons] at hnd
    have hne : p.1 ≠ k := by
      intro h
      exact hnd.1 (h ▸ hmem)
    simpa [dictGet, hne] using ih k v v0 L₂ hnd.2

/-- Mapping a function over the values of an association list commutes
with lookup. -/
theorem dictGet_mapVals {β γ : Type} (g : β → γ) :
    ∀ (d : List (String × β)) (k : String) (v0 : β),
      dictGet (d.map fun p => (p.1, g p.2)) k (g v0) = g (dictGet d k v0) := by
  intro d
  induction d with
  | nil => intro k v0; simp [dictGet]
  | cons p rest ih =>
    intro k v0
    by_cases h : p.1 = k <;> simp [dictGet, h, ih]

/-- Every chunk payload has exactly `cs` samples: the slice is at most
`cs` long and the zero-padding tops it up. -/
theorem mkChunk_audio_length (cs sr : ℕ) (audio : List ℚ) (pos : ℕ) :
    (mkChunk cs sr audio pos).audio_data.length = cs := by
  simp only [mkChunk, List.length_append, List.length_take, List.length_drop,
    List.length_replicate]
  omega

/-- Closed form of the chunking loop: with `cs ≥ 1` and enough fuel it
terminates and emits one chunk per window position. -/
theorem splitLoop_eq (cs sr : ℕ) (audio : List ℚ) (hcs : 1 ≤ cs) :
    ∀ (fuel pos : ℕ), audio.length - pos ≤ fuel →
      splitLoop cs sr audio fuel pos =
        some ((List.range (numChunksFrom cs audio.length pos)).map
          fun i => mkChunk cs sr audio (pos + i * cs)) := by
  intro fuel
  induction fuel with
  | zero =>
    intro pos h
    rw [splitLoop, if_neg (by omega)]
    rw [show numChunksFrom cs audio.length pos = 0 from by
      simp only [numChunksFrom, if_pos (by omega : audio.length ≤ pos)]]
    simp
  | succ fuel ih =>
    intro pos h
    by_cases hp : pos < audio.length
    · rw [splitLoop, if_pos hp]
      have hfuel : audio.length - min (pos + cs) audio.length ≤ fuel := by omega
      rw [ih (min (pos + cs) audio.length) hfuel]
      simp only [Option.map_some']
      congr 1
      rcases lt_or_le (pos + cs) audio.length with hlt | hle
      · have hee : min (pos + cs) audio.length = pos + cs := by omega
        rw [hee]
        have hk : numChunksFrom cs audio.length pos
            = numChunksFrom cs audio.length (pos + cs) + 1 := by
          have h1 : ¬ audio.length ≤ pos := by omega
          have h2 : ¬ audio.length ≤ pos + cs := by omega
          simp only [numChunksFrom, if_neg h1, if_neg h2]
          rw [show audio.length - pos - 1
              = (audio.length - (pos + cs) - 1) + cs from by omega]
          rw [Nat.add_div_right _ (by omega : 0 < cs)]
        rw [hk, List.range_succ_eq_map, List.map_cons, List.map_map]
        congr 1
        · norm_num
        · refine List.map_congr_left ?_
          intro i _
          simp only [Function.comp_apply]
          congr 1
          rw [Nat.succ_mul]
          ring
      · have hee : min (pos + cs) audio.length = audio.length := by omega
        rw [hee]
        rw [show numChunksFrom cs audio.length audio.length = 0 from by
          simp [numChunksFrom]]
        rw [show numChunksFrom cs audio.length pos = 1 from by
          simp only [numChunksFrom, if_neg (by omega : ¬ audio.length ≤ pos)]
          rw [Nat.div_eq_of_lt (by omega)]]
        rw [show (1 : ℕ) = 0 + 1 from rfl, List.range_succ_eq_map]
        simp
    · rw [splitLoop, if_neg hp]
      rw [show numChunksFrom cs audio.length pos = 0 from by
        simp only [numChunksFrom, if_pos (by omega : audio.length ≤ pos)]]
      simp

/-- Closed form of `_split_into_chunks` when `chunk_samples ≥ 1`. -/
theorem splitIntoChunks_eq (cd : ℚ) (sr : ℕ) (audio : List ℚ)
    (hcs : 1 ≤ chunkSamples cd sr) :
    splitIntoChunks cd sr audio =
      some ((List.range (numChunksFrom (chunkSamples cd sr) audio.length 0)).map
        fun i => mkChunk (chunkSamples cd sr) sr audio (i * chunkSamples cd sr)) := by
  have h := splitLoop_eq (chunkSamples cd sr) sr audio hcs audio.length 0
    (by omega)
  simpa [splitIntoChunks] using h

/-- With `chunk_samples = 0` the loop position never advances: from any
position inside the audio the loop makes no progress, for any amount of
fuel. -/
theorem splitLoop_zero_cs (sr : ℕ) (audio : List ℚ) :
    ∀ fuel pos, pos < audio.length → splitLoop 0 sr audio fuel pos = none := by
  intro fuel
  induction fuel with
  | zero => intro pos hp; rw [splitLoop, if_pos hp]
  | succ fuel ih =>
    intro pos hp
    rw [splitLoop, if_pos hp]
    rw [show min (pos + 0) audio.length = pos from by omega]
    rw [ih pos hp]
    rfl

/-- Formalisation of the claimed event rule: a pair of consecutive
predictions yields an event exactly when the labels differ, carrying the
new prediction's start time and confidence.  (Because the loop's running
"previous emotion" always equals the preceding prediction's emotion —
it is updated to the current emotion on a change and already equals it
otherwise — the claim's per-position rule is exactly a rule on adjacent
pairs.) -/
def changeOfPair (p : Prediction × Prediction) : Option ChangeEvent :=
  if p.2.emotion ≠ p.1.emotion then
    some { timestamp := p.2.start_time
           from_emotion := p.1.emotion
           to_emotion := p.2.emotion
           confidence := p.2.confidence }
  else none

theorem detectLoop_eq_zip :
    ∀ (t : List Prediction) (b : Prediction) (prev : String),
      detectLoop prev (b :: t) =
        (if b.emotion ≠ prev then
          [{ timestamp := b.start_time
             from_emotion := prev
             to_emotion := b.emotion
             confidence := b.confidence }] else [])
        ++ ((b :: t).zip t).filterMap changeOfPair := by
  intro t
  induction t with
  | nil =>
    intro b prev
    by_cases h : b.emotion = prev <;>
      simp [detectLoop, h]
  | cons c t ih =>
    intro b prev
    by_cases h : b.emotion = prev
    · have hl : detectLoop prev (b :: c :: t) = detectLoop prev (c :: t) := by
        simp [detectLoop, h]
      rw [hl, ih c prev]
      have hzip : ((b :: c :: t).zip (c :: t)).filterMap changeOfPair
          = (changeOfPair (b, c)).toList
            ++ ((c :: t).zip t).filterMap changeOfPair := by
        simp [List.filterMap_cons]
        cases changeOfPair (b, c) <;> simp
      rw [hzip]
      have hco : changeOfPair (b, c)
          = if c.emotion ≠ prev then
              some { timestamp := c.start_time
                     from_emotion := prev
                     to_emotion := c.emotion
                     confidence := c.confidence }
            else none := by
        simp [changeOfPair, h]
      rw [hco]
      by_cases hc : c.emotion = prev <;> simp [hc, h]
    · have hl : detectLoop prev (b :: c :: t) =
          { timestamp := b.start_time
            from_emotion := prev
            to_emotion := b.emotion
            confidence := b.confidence : ChangeEvent } :: detectLoop b.emotion (c :: t) := by
        simp [detectLoop, h]
      rw [hl, ih c b.emotion]
      have hzip : ((b :: c :: t).zip (c :: t)).filterMap changeOfPair
          = (changeOfPair (b, c)).toList
            ++ ((c :: t).zip t).filterMap changeOfPair := by
        simp [List.filterMap_cons]
        cases changeOfPair (b, c) <;> simp
      rw [hzip]
      have hco : changeOfPair (b, c)
          = if c.emotion ≠ b.emotion then
              some { timestamp := c.start_time
                     from_emotion := b.emotion
                     to_emotion := c.emotion
                     confidence := c.confidence }
            else none := by
        simp [changeOfPair]
      rw [hco]
      by_cases hc : c.emotion = b.emotion <;> simp [hc, h]

/-- `detect_emotion_changes` emits exactly one event per adjacent pair of
predictions with differing labels. -/
theorem detect_changes_eq_zip (l : List Prediction) :
    detect_emotion_changes l = (l.zip l.tail).filterMap changeOfPair := by
  match l with
  | [] => rfl
  | [a] => rfl
  | a :: b :: t =>
    have hlen : ¬ (a :: b :: t).length < 2 := by simp
    rw [detect_emotion_changes]
    rw [if_neg hlen]
    rw [detectLoop_eq_zip t b a.emotion]
    have hzip : ((a :: b :: t).zip (b :: t)).filterMap changeOfPair
        = (changeOfPair (a, b)).toList
          ++ ((b :: t).zip t).filterMap changeOfPair := by
      simp [List.filterMap_cons]
      cases changeOfPair (a, b) <;> simp
    rw [List.tail_cons, hzip]
    have hco : changeOfPair (a, b)
        = if b.emotion ≠ a.emotion then
            some { timestamp := b.start_time
                   from_emotion := a.emotion
                   to_emotion := b.emotion
                   confidence := b.confidence }
          else none := by
      simp [changeOfPair]
    rw [hco]
    by_cases hc : b.emotion = a.emotion <;> simp [hc]

theorem foldl_statsStep_durations_ne_nil :
    ∀ (results : List Prediction) (acc : StatsAcc),
      acc.durations ≠ [] ∨ results ≠ [] →
      (results.foldl statsStep acc).durations ≠ [] := by
  intro results
  induction results with
  | nil =>
    intro acc h
    rcases h with h | h
    · exact h
    · simp at h
  | cons r t ih =>
    intro acc _
    simp only [List.foldl_cons]
    apply ih
    left
    exact dictSet_ne_nil _ _ _

/-! ## Claim-side definitions and shared evaluations -/

/-- The decision table of spec §4.3, transcribed row by row from the
spec's words: rows are evaluated top to bottom, the first matching row
wins, all unmentioned labels of the fallback set default to 0, and the
resulting unnormalized score dict is listed in the canonical label order
`[neutral, happy, sad, angry, fearful, surprised]`. -/
def specTableScores (f : FeatureVector) : List (String × ℚ) :=
  if f.energy > 1/2 ∧ f.pitch_std > 50 then
    [("neutral",0),("happy",0),("sad",0),("angry",2/5),("fearful",0),("surprised",3/10)]
  else if f.energy > 1/2 then
    [("neutral",0),("happy",1/2),("sad",0),("angry",0),("fearful",0),("surprised",0)]
  else if f.energy < 1/5 ∧ f.pitch_mean < 150 then
    [("neutral",0),("happy",0),("sad",3/5),("angry",0),("fearful",0),("surprised",0)]
  else if f.energy < 1/5 then
    [("neutral",1/2),("happy",0),("sad",0),("angry",0),("fearful",0),("surprised",0)]
  else if f.zero_crossing_rate > 1/10 then
    [("neutral",2/5),("happy",0),("sad",0),("angry",0),("fearful",2/5),("surprised",0)]
  else
    [("neutral",2/5),("happy",0),("sad",0),("angry",0),("fearful",0),("surprised",0)]

/-- The code's unnormalized scoring cascade agrees branch for branch with
the spec's §4.3 decision table. -/
theorem rawScores_eq_table (f : FeatureVector) :
    rawScores f = specTableScores f := by
  simp only [rawScores, specTableScores, fallbackEmotions, List.map_cons,
    List.map_nil]
  split_ifs <;> tauto

/-- Full evaluation of the rule-based classifier at the spec §8 example
feature vector `energy=0.6, zcr=0.05, pitch_mean=100, pitch_std=60`. -/
theorem classifyFeatures_ex_eval :
    classifyFeatures ⟨3/5, 1/20, 100, 60⟩ =
      ⟨"angry", 2857/5000,
        [("neutral",0),("happy",0),("sad",0),("angry",4/7),("fearful",0),("surprised",3/7)]⟩ := by
  have hraw : rawScores ⟨3/5, 1/20, 100, 60⟩
      = [("neutral",0),("happy",0),("sad",0),("angry",2/5),("fearful",0),("surprised",3/10)] := by
    rw [rawScores]
    rw [if_pos (by norm_num : (3:ℚ)/5 > 1/2)]
    rw [if_pos (by norm_num : (60:ℚ) > 50)]
    simp [fallbackEmotions, dictSet]
  have hnorm : normalizeScores
        [("neutral",0),("happy",0),("sad",0),("angry",2/5),("fearful",0),("surprised",3/10)]
      = [("neutral",0),("happy",0),("sad",0),("angry",4/7),("fearful",0),("surprised",3/7)] := by
    rw [normalizeScores]
    norm_num
  have hmax : (pyMaxBySnd ("", 0)
        [("neutral",(0:ℚ)),("happy",0),("sad",0),("angry",4/7),("fearful",0),("surprised",3/7)]).1
      = "angry" := by
    norm_num [pyMaxBySnd, pickMax]
  have hget : dictGet
        [("neutral",(0:ℚ)),("happy",0),("sad",0),("angry",4/7),("fearful",0),("surprised",3/7)]
        "angry" 0 = 4/7 := by
    simp [dictGet]
  have hr4 : round4 (4/7) = 2857/5000 := by
    norm_num [round4, roundHalfEven]
  simp only [classifyFeatures, hraw, hnorm, hmax, hget, hr4]

/-- Full evaluation of the rule-based classifier at the zero feature
vector: energy 0 is below 0.2 and pitch_mean 0 is below 150, so the `sad`
branch fires and normalizes to the unit distribution on `sad`. -/
theorem classifyFeatures_zero_eval :
    classifyFeatures ⟨0, 0, 0, 0⟩ =
      ⟨"sad", 1,
        [("neutral",0),("happy",0),("sad",1),("angry",0),("fearful",0),("surprised",0)]⟩ := by
  have hraw : rawScores ⟨0, 0, 0, 0⟩
      = [("neutral",0),("happy",0),("sad",3/5),("angry",0),("fearful",0),("surprised",0)] := by
    rw [rawScores]
    rw [if_neg (by norm_num : ¬ ((0:ℚ) > 1/2))]
    rw [if_pos (by norm_num : (0:ℚ) < 1/5)]
    rw [if_pos (by norm_num : (0:ℚ) < 150)]
    simp [fallbackEmotions, dictSet]
  have hnorm : normalizeScores
        [("neutral",0),("happy",0),("sad",3/5),("angry",0),("fearful",0),("surprised",0)]
      = [("neutral",0),("happy",0),("sad",1),("angry",0),("fearful",0),("surprised",0)] := by
    rw [normalizeScores]
    norm_num
  have hmax : (pyMaxBySnd ("", 0)
        [("neutral",(0:ℚ)),("happy",0),("sad",1),("angry",0),("fearful",0),("surprised",0)]).1
      = "sad" := by
    norm_num [pyMaxBySnd, pickMax]
  have hget : dictGet
        [("neutral",(0:ℚ)),("happy",0),("sad",1),("angry",0),("fearful",0),("surprised",0)]
        "sad" 0 = 1 := by
    simp [dictGet]
  have hr4 : round4 1 = 1 := by
    norm_num [round4, roundHalfEven]
  simp only [classifyFeatures, hraw, hnorm, hmax, hget, hr4]

/-! ## Claim theorems -/

/-- C5: the rule-based classifier assigns unnormalized scores exactly per
the §4.3 decision table (top to bottom, first matching branch wins), then
normalizes by the sum; on the feature vector `energy=0.6, zcr=0.05,
pitch_mean=100, pitch_std=60` it classifies as `angry` with probability
0.4/0.7 = 4/7 over `surprised` with probability 0.3/0.7 = 3/7. -/
theorem C5_decision_table :
    (∀ f : FeatureVector, rawScores f = specTableScores f)
    ∧ (classifyFeatures ⟨3/5, 1/20, 100, 60⟩).emotion = "angry"
    ∧ dictGet (classifyFeatures ⟨3/5, 1/20, 100, 60⟩).scores "angry" 0 = 4/7
    ∧ dictGet (classifyFeatures ⟨3/5, 1/20, 100, 60⟩).scores "surprised" 0 = 3/7 := by
  refine ⟨rawScores_eq_table, ?_, ?_, ?_⟩ <;>
    rw [classifyFeatures_ex_eval] <;> simp [dictGet]

/-- C6: for every feature vector the rule-based classifier's output
distribution is non-negative elementwise and sums to 1 exactly (hence
within 1e-6); and whenever the pre-normalization score sum is 0, the
guard assigns `neutral = 1.0`. -/
theorem C6_distribution_sums_to_one :
    (∀ f : FeatureVector,
      (∀ p ∈ (classifyFeatures f).scores, 0 ≤ p.2)
      ∧ |((classifyFeatures f).scores.map Prod.snd).sum - 1| ≤ 1/1000000)
    ∧ (∀ raw : List (String × ℚ), (raw.map Prod.snd).sum = 0 →
        dictGet (normalizeScores raw) "neutral" 0 = 1) := by
  constructor
  · intro f
    have h : (classifyFeatures f).scores = normalizeScores (rawScores f) := rfl
    rw [h, rawScores_eq_table, specTableScores]
    split_ifs <;> refine ⟨?_, ?_⟩ <;> norm_num [normalizeScores]
  · intro raw h
    simp only [normalizeScores, h]
    rw [if_neg (lt_irrefl 0)]
    exact dictGet_dictSet_self raw "neutral" 1 0

theorem C6_witness :
    dictGet (normalizeScores [("neutral", 0)]) "neutral" 0 = 1 :=
  C6_distribution_sums_to_one.2 [("neutral", 0)] (by simp)

/-- Auxiliary: reading a list element through `getD` at an in-range
index gives the `getElem` value. -/
theorem getD_eq_getElem_of_lt {α : Type} (l : List α) (d : α) (i : ℕ)
    (h : i < l.length) : l.getD i d = l[i] := by
  rw [List.getD_eq_getElem?_getD, List.getElem?_eq_getElem h]
  rfl

/-- `np.argmax` over a probability list, zipped with a duplicate-free
label list of the same length, selects the label of the first maximal
probability, and looking that label up in the zipped score dict returns
the arg-max probability. -/
theorem npArgmax_zip_isFirstMaxKey (labels : List String) (probs : List ℚ)
    (hlen : probs.length = labels.length) (hne : probs ≠ [])
    (hnodup : labels.Nodup) :
    IsFirstMaxKey (labels.zip probs) (labels.getD (npArgmax probs) "")
    ∧ dictGet (labels.zip probs) (labels.getD (npArgmax probs) "") 0
        = probs.getD (npArgmax probs) 0 := by
  obtain ⟨p0, prest, henum⟩ : ∃ p0 prest, probs.enum = p0 :: prest := by
    cases hp : probs.enum with
    | nil =>
      exfalso
      have h0 : probs.enum.length = 0 := by rw [hp]; rfl
      rw [List.enum_length] at h0
      exact hne (List.length_eq_zero.mp h0)
    | cons a b => exact ⟨a, b, rfl⟩
  obtain ⟨E₁, E₂, hE, hle, hlt⟩ := by
    have h := pyMaxBySnd_split (0, 0) p0 prest
    rw [← henum] at h
    exact h
  have hlenE : E₁.length < probs.enum.length := by rw [hE]; simp
  have hilen : E₁.length < probs.length := by
    rw [List.enum_length] at hlenE; exact hlenE
  have hllen : E₁.length < labels.length := by omega
  -- identify the fold result as the pair (E₁.length, probs[E₁.length])
  have hcong : probs.enum.getD E₁.length (0, 0)
      = (E₁ ++ pyMaxBySnd (0, 0) probs.enum :: E₂).getD E₁.length (0, 0) := by
    conv_lhs => rw [hE]
  have h1 : probs.enum.getD E₁.length (0, 0)
      = (E₁.length, probs[E₁.length]) := by
    rw [getD_eq_getElem_of_lt _ _ _ hlenE]
    exact List.getElem_enum probs E₁.length hlenE
  have h2 : (E₁ ++ pyMaxBySnd (0, 0) probs.enum :: E₂).getD E₁.length (0, 0)
      = pyMaxBySnd (0, 0) probs.enum := by
    rw [getD_eq_getElem_of_lt _ _ _ (by simp)]
    rw [List.getElem_append_right (le_refl _)]
    simp
  have hr : pyMaxBySnd (0, 0) probs.enum = (E₁.length, probs[E₁.length]) := by
    rw [← h2, ← hcong, h1]
  have hidx : npArgmax probs = E₁.length := by
    rw [npArgmax, hr]
  have hval : (pyMaxBySnd (0, 0) probs.enum).2 = probs[E₁.length] := by
    rw [hr]
  have hzlen : E₁.length < (labels.zip probs).length := by
    rw [List.length_zip]
    omega
  have hzget : (labels.zip probs)[E₁.length]
      = (labels[E₁.length], probs[E₁.length]) :=
    List.getElem_zip
  have hgetD : labels.getD E₁.length "" = labels[E₁.length] :=
    getD_eq_getElem_of_lt _ _ _ hllen
  rw [hidx, hgetD]
  have hsplit_eq : labels.zip probs
      = (labels.zip probs).take E₁.length
        ++ (labels[E₁.length], probs[E₁.length])
          :: (labels.zip probs).drop (E₁.length + 1) := by
    conv_lhs => rw [← List.take_append_drop E₁.length (labels.zip probs),
      List.drop_eq_getElem_cons hzlen, hzget]
  have hkeys : (labels.zip probs).map Prod.fst = labels :=
    List.map_fst_zip _ _ (by omega)
  refine ⟨⟨(labels.zip probs).take E₁.length, probs[E₁.length],
    (labels.zip probs).drop (E₁.length + 1), hsplit_eq, ?_, ?_⟩, ?_⟩
  · intro p hp
    obtain ⟨j, hj, hpj⟩ : ∃ j, ∃ hj : j < (labels.zip probs).length,
        (labels.zip probs)[j] = p := by
      obtain ⟨n, hn⟩ := List.get_of_mem hp
      exact ⟨n.1, n.2, hn⟩
    have hjp : j < probs.length := by rw [List.length_zip] at hj; omega
    have hjl : j < labels.length := by omega
    have hje : j < probs.enum.length := by rw [List.enum_length]; omega
    have hz : (labels.zip probs)[j] = (labels[j], probs[j]) :=
      List.getElem_zip
    have hmem : (j, probs[j]) ∈ probs.enum := by
      have he : probs.enum[j]
          = (j, probs[j]) := List.getElem_enum probs j hje
      rw [← he]
      exact List.getElem_mem _
    have hb := hle _ hmem
    rw [hval] at hb
    rw [← hpj, hz]
    exact hb
  · intro q hq
    obtain ⟨j, hj, hqj⟩ : ∃ j, ∃ hj : j < ((labels.zip probs).take E₁.length).length,
        ((labels.zip probs).take E₁.length)[j] = q := by
      obtain ⟨n, hn⟩ := List.get_of_mem hq
      exact ⟨n.1, n.2, hn⟩
    have hji : j < E₁.length := by
      rw [List.length_take] at hj
      omega
    have hjp : j < probs.length := by omega
    have hjl : j < labels.length := by omega
    have hjz : j < (labels.zip probs).length := by
      rw [List.length_zip]; omega
    have hje : j < probs.enum.length := by rw [List.enum_length]; omega
    have htake : ((labels.zip probs).take E₁.length)[j]
        = (labels.zip probs)[j] := by
      rw [List.getElem_take]
    have hz : (labels.zip probs)[j]
        = (labels[j], probs[j]) :=
      List.getElem_zip
    -- the j-th enum entry lies in E₁
    have hcongj : probs.enum.getD j (0, 0)
        = (E₁ ++ pyMaxBySnd (0, 0) probs.enum :: E₂).getD j (0, 0) := by
      conv_lhs => rw [hE]
    have hj1 : probs.enum.getD j (0, 0) = (j, probs[j]) := by
      rw [getD_eq_getElem_of_lt _ _ _ (by rw [List.enum_length]; omega)]
      exact List.getElem_enum probs j _
    have hj2 : (E₁ ++ pyMaxBySnd (0, 0) probs.enum :: E₂).getD j (0, 0)
        = E₁.getD j (0, 0) := by
      rw [getD_eq_getElem_of_lt _ _ _ (by simp; omega),
        getD_eq_getElem_of_lt _ _ _ hji]
      rw [List.getElem_append_left]
    have hmemE : (j, probs[j]) ∈ E₁ := by
      have hEj : E₁.getD j (0, 0) = (j, probs[j]) := by
        rw [← hj2, ← hcongj, hj1]
      rw [getD_eq_getElem_of_lt _ _ _ hji] at hEj
      rw [← hEj]
      exact List.getElem_mem _
    have hb := hlt _ hmemE
    rw [hval] at hb
    rw [← hqj, htake, hz]
    exact hb
  · rw [getD_eq_getElem_of_lt _ _ _ hilen]
    rw [hsplit_eq]
    apply dictGet_of_split
    rw [← hsplit_eq, hkeys]
    exact hnodup

/-- The normalized score dict of the rule-based path always keeps the
fallback label set in its canonical order as its keys. -/
theorem normalize_rawScores_keys (f : FeatureVector) :
    (normalizeScores (rawScores f)).map Prod.fst = fallbackEmotions := by
  rw [rawScores_eq_table, specTableScores]
  split_ifs <;> norm_num [normalizeScores, fallbackEmotions]

/-- C4 counterexample: at the feature vector `energy=0.6, zcr=0.05,
pitch_mean=100, pitch_std=60` the rule-based path returns confidence
`round4(4/7) = 0.5714`, while `scores[emotion] = 4/7`; the returned
confidence does not equal `scores[emotion]` exactly. -/
theorem C4_counterexample :
    (classifyFeatures ⟨3/5, 1/20, 100, 60⟩).confidence
      ≠ dictGet (classifyFeatures ⟨3/5, 1/20, 100, 60⟩).scores
          (classifyFeatures ⟨3/5, 1/20, 100, 60⟩).emotion 0 := by
  rw [classifyFeatures_ex_eval]
  simp [dictGet]
  norm_num

/-- C4 (amended): on both classifier paths the predicted emotion is the
arg-max label of the score dict with ties broken by first occurrence in
that path's label ordering (the canonical fallback ordering
`[neutral, happy, sad, angry, fearful, surprised]` for the rule-based
path, whose score dict always carries exactly those keys in that order;
the model's label ordering for the model path), and the returned
confidence equals `scores[emotion]` rounded to 4 decimal places (not
`scores[emotion]` exactly). -/
theorem C4_argmax_and_rounded_confidence :
    (∀ f : FeatureVector,
      (classifyFeatures f).scores.map Prod.fst = fallbackEmotions
      ∧ IsFirstMaxKey (classifyFeatures f).scores (classifyFeatures f).emotion
      ∧ (classifyFeatures f).confidence
          = round4 (dictGet (classifyFeatures f).scores
              (classifyFeatures f).emotion 0))
    ∧ (∀ probs : List ℚ, probs.length = modelEmotions.length →
      IsFirstMaxKey (predictWithModel probs).scores (predictWithModel probs).emotion
      ∧ (predictWithModel probs).confidence
          = round4 (dictGet (predictWithModel probs).scores
              (predictWithModel probs).emotion 0)) := by
  constructor
  · intro f
    refine ⟨normalize_rawScores_keys f, ?_, rfl⟩
    have hkeys := normalize_rawScores_keys f
    cases hs : normalizeScores (rawScores f) with
    | nil =>
      exfalso
      rw [hs] at hkeys
      simp [fallbackEmotions] at hkeys
    | cons p rest =>
      have he : (classifyFeatures f).scores = p :: rest := hs
      have hm : (classifyFeatures f).emotion = (pyMaxBySnd ("", 0) (p :: rest)).1 := by
        show (pyMaxBySnd ("", 0) (normalizeScores (rawScores f))).1 = _
        rw [hs]
      rw [he, hm]
      exact pyMaxBySnd_isFirstMaxKey ("", 0) p rest
  · intro probs hplen
    have hne : probs ≠ [] := by
      intro h
      rw [h] at hplen
      simp [modelEmotions] at hplen
    have hnodup : modelEmotions.Nodup := by decide
    obtain ⟨hfm, hget⟩ := npArgmax_zip_isFirstMaxKey modelEmotions probs hplen hne hnodup
    simp only [predictWithModel]
    exact ⟨hfm, by rw [hget]⟩

theorem C4_witness :
    IsFirstMaxKey (predictWithModel [1/10, 2/10, 1/10, 1/10, 2/10, 1/10, 1/10, 1/10]).scores
      (predictWithModel [1/10, 2/10, 1/10, 1/10, 2/10, 1/10, 1/10, 1/10]).emotion :=
  (C4_argmax_and_rounded_confidence.2
    [1/10, 2/10, 1/10, 1/10, 2/10, 1/10, 1/10, 1/10] (by simp [modelEmotions])).1

/-- Concrete evaluation: feature extraction on the all-zero 3-sample
waveform (with the external pitch tracker reporting no voiced frame)
returns the zero feature vector. -/
theorem extractFeatures_zeros3 :
    extractFeatures (fun _ => 0) [] [0, 0, 0] = ⟨0, 0, 0, 0⟩ := by
  simp [extractFeatures, zcrModel, npMean]

/-- C1 counterexample: on the all-zero chunk `[0,0,0]` feature extraction
returns the zero vector, but the rule-based classifier labels it `sad`
(energy 0 < 0.2 and pitch_mean 0 < 150 select the sad branch), not
`neutral`. -/
theorem C1_counterexample :
    (classifyFeatures (extractFeatures (fun _ => 0) [] [0, 0, 0])).emotion
      ≠ "neutral" := by
  rw [extractFeatures_zeros3, classifyFeatures_zero_eval]
  decide

/-- C1 (amended): for every all-zero waveform chunk of positive length
(the external pitch tracker reports no voiced frame on silence, spec
§4.2), feature extraction returns the zero feature vector, and the
rule-based classifier applied to that vector produces the single-label
unit distribution with emotion `sad` and confidence 1.0. -/
theorem C1_zero_chunk_classifies_sad (stdFn : List ℚ → ℚ) (audio : List ℚ)
    (hne : audio ≠ []) (hz : ∀ x ∈ audio, x = 0) :
    extractFeatures stdFn [] audio = ⟨0, 0, 0, 0⟩
    ∧ classifyFeatures ⟨0, 0, 0, 0⟩
      = ⟨"sad", 1,
          [("neutral",0),("happy",0),("sad",1),("angry",0),("fearful",0),("surprised",0)]⟩ := by
  constructor
  · have h1 : (audio.map fun x => x * x).sum = 0 := by
      apply List.sum_eq_zero
      intro y hy
      obtain ⟨x, hx, rfl⟩ := List.mem_map.mp hy
      rw [hz x hx]
      ring
    have h2 : (audio.zip audio.tail).countP
        (fun p => decide (p.1 < 0) != decide (p.2 < 0)) = 0 := by
      rw [List.countP_eq_zero]
      intro p hp
      have hmem := List.of_mem_zip hp
      have hp1 : p.1 = 0 := hz p.1 hmem.1
      have hp2 : p.2 = 0 := hz p.2 (List.mem_of_mem_tail hmem.2)
      rw [hp1, hp2]
      simp
    simp only [extractFeatures, zcrModel, h1, h2]
    norm_num
  · exact classifyFeatures_zero_eval

theorem C1_witness :
    extractFeatures (fun _ => 0) [] [0, 0, 0] = ⟨0, 0, 0, 0⟩ :=
  (C1_zero_chunk_classifies_sad (fun _ => 0) [0, 0, 0] (by simp)
    (by intro x hx; simpa using hx)).1

/-- Unpacking the closed form: the chunk list's length and its `i`-th
element. -/
theorem splitIntoChunks_get (cd : ℚ) (sr : ℕ) (audio : List ℚ)
    (hcs : 1 ≤ chunkSamples cd sr) (chunks : List Chunk)
    (hsplit : splitIntoChunks cd sr audio = some chunks) :
    chunks.length = numChunksFrom (chunkSamples cd sr) audio.length 0
    ∧ ∀ i (h : i < chunks.length),
        chunks.get ⟨i, h⟩
          = mkChunk (chunkSamples cd sr) sr audio (i * chunkSamples cd sr) := by
  rw [splitIntoChunks_eq cd sr audio hcs] at hsplit
  have hc : chunks = (List.range (numChunksFrom (chunkSamples cd sr) audio.length 0)).map
      fun i => mkChunk (chunkSamples cd sr) sr audio (i * chunkSamples cd sr) :=
    (Option.some.inj hsplit).symm
  subst hc
  refine ⟨by simp, ?_⟩
  intro i h
  simp

theorem numChunks_mul_lt (cs total i : ℕ) (hcs : 1 ≤ cs)
    (h : i < numChunksFrom cs total 0) : i * cs < total := by
  unfold numChunksFrom at h
  by_cases ht : total ≤ 0
  · rw [if_pos ht] at h
    omega
  · rw [if_neg ht] at h
    have hd : (total - 0 - 1) / cs * cs ≤ total - 0 - 1 :=
      Nat.div_mul_le_self _ _
    have hmul : i * cs ≤ (total - 0 - 1) / cs * cs :=
      Nat.mul_le_mul_right cs (by omega)
    omega

theorem numChunks_total_le (cs total : ℕ) (hcs : 1 ≤ cs) (ht : 0 < total) :
    total ≤ numChunksFrom cs total 0 * cs := by
  unfold numChunksFrom
  rw [if_neg (by omega)]
  have hd := Nat.div_add_mod (total - 0 - 1) cs
  have hcomm : cs * ((total - 0 - 1) / cs) = (total - 0 - 1) / cs * cs :=
    Nat.mul_comm _ _
  have hm : (total - 0 - 1) % cs < cs := Nat.mod_lt _ (by omega)
  have he : ((total - 0 - 1) / cs + 1) * cs = (total - 0 - 1) / cs * cs + cs := by
    ring
  omega

theorem numChunks_pos (cs total : ℕ) (ht : 0 < total) :
    0 < numChunksFrom cs total 0 := by
  unfold numChunksFrom
  rw [if_neg (by omega)]
  exact Nat.succ_pos _

/-- C2 counterexample: segmentation of the empty decoded waveform (with
the default 3 s / 16 kHz configuration) terminates normally with an empty
chunk list; it does not fail with `EmptyAudio`. -/
theorem C2_counterexample :
    processDecoded 3 16000 [] = some (Except.ok [])
    ∧ (Except.ok [] : Except AnalysisError (List Chunk))
        ≠ Except.error AnalysisError.EmptyAudio := by
  exact ⟨rfl, by simp⟩

/-- C2 (amended): on a decoded waveform with zero samples the pipeline
raises no error: segmentation returns an empty chunk list and the whole
analysis completes with empty results, no change events, and statistics
reporting `total_duration = 0` and `dominant_emotion = "Unknown"` —
there is no `EmptyAudio` check anywhere in the code. -/
theorem C2_empty_waveform_no_error (cd : ℚ) (sr : ℕ)
    (classify : List ℚ → ℕ → PredictionResult) :
    processDecoded cd sr [] = some (Except.ok [])
    ∧ analyzeDecoded classify cd sr []
        = some ([], [], ⟨0, [], [], [], "Unknown"⟩) := by
  constructor
  · rfl
  · have hstats : calculate_statistics [] = ⟨0, [], [], [], "Unknown"⟩ := by
      simp [calculate_statistics, statsFold, round2_zero]
    have hsplit : splitIntoChunks cd sr [] = some [] := rfl
    simp [analyzeDecoded, hsplit, detect_emotion_changes, hstats]

/-- C3 counterexample: with `chunk_duration = 3` s at 2 Hz, a 2-sample
waveform produces one chunk whose reported duration is 1 s, not the
configured 3 s: the claimed invariant fails on the last chunk. -/
theorem C3_counterexample :
    splitIntoChunks 3 2 [0, 0] = some [⟨[0, 0, 0, 0, 0, 0], 2, 0, 1, 1⟩]
    ∧ ((1 : ℚ) = 3 → False) := by
  constructor
  · norm_num [splitIntoChunks, splitLoop, chunkSamples, pyInt, mkChunk,
      round2, roundHalfEven, List.replicate]
  · norm_num

/-- C3 (amended): with `chunk_samples ≥ 1`, every chunk except the last
has reported duration `round2(chunk_samples / sample_rate)` (the window
length, which equals the configured `chunk_duration` exactly when
`chunk_duration * sample_rate` is an integer); the last chunk's reported
duration is the true remaining audio time
`round2((total_samples - start_sample) / sample_rate)`, which can be
shorter — the reported duration is measured from the unpadded sample
count, not the configuration constant. -/
theorem C3_duration_config_except_last (cd : ℚ) (sr : ℕ) (audio : List ℚ)
    (hcs : 1 ≤ chunkSamples cd sr) (chunks : List Chunk)
    (hsplit : splitIntoChunks cd sr audio = some chunks) :
    (∀ i (h : i < chunks.length), i + 1 < chunks.length →
      (chunks.get ⟨i, h⟩).duration
        = round2 ((chunkSamples cd sr : ℚ) / (sr : ℚ)))
    ∧ (∀ i (h : i < chunks.length), i + 1 = chunks.length →
      (chunks.get ⟨i, h⟩).duration
        = round2 (((audio.length : ℚ) - (i : ℚ) * (chunkSamples cd sr : ℚ))
            / (sr : ℚ))) := by
  obtain ⟨hlen, hget⟩ := splitIntoChunks_get cd sr audio hcs chunks hsplit
  constructor
  · intro i h hlast
    rw [hget i h]
    have hml : (i + 1) * chunkSamples cd sr < audio.length := by
      apply numChunks_mul_lt _ _ _ hcs
      omega
    have hx : (i + 1) * chunkSamples cd sr
        = i * chunkSamples cd sr + chunkSamples cd sr := by ring
    have hmin : min (i * chunkSamples cd sr + chunkSamples cd sr) audio.length
        = i * chunkSamples cd sr + chunkSamples cd sr := by omega
    simp only [mkChunk, hmin]
    congr 1
    push_cast
    ring
  · intro i h hlast
    rw [hget i h]
    have hpos : 0 < audio.length := by
      by_contra hc
      have h0 : numChunksFrom (chunkSamples cd sr) audio.length 0 = 0 := by
        unfold numChunksFrom
        rw [if_pos (by omega)]
      omega
    have h2 := numChunks_total_le (chunkSamples cd sr) audio.length hcs hpos
    have hk : numChunksFrom (chunkSamples cd sr) audio.length 0 = i + 1 := by
      omega
    rw [hk] at h2
    have hx : (i + 1) * chunkSamples cd sr
        = i * chunkSamples cd sr + chunkSamples cd sr := by ring
    have hmin : min (i * chunkSamples cd sr + chunkSamples cd sr) audio.length
        = audio.length := by omega
    simp only [mkChunk, hmin]
    congr 1
    push_cast
    ring

set_option maxHeartbeats 1000000 in
theorem C3_witness :
    (([⟨[0, 0, 0, 0, 0, 0], 2, 0, 1, 1⟩] : List Chunk).get
        ⟨0, by norm_num⟩).duration
      = round2 (((([0, 0] : List ℚ).length : ℚ)
          - ((0 : ℕ) : ℚ) * ((chunkSamples 3 2 : ℕ) : ℚ)) / ((2 : ℕ) : ℚ)) :=
  (C3_duration_config_except_last 3 2 [0, 0]
    (by norm_num [chunkSamples, pyInt])
    [⟨[0, 0, 0, 0, 0, 0], 2, 0, 1, 1⟩]
    (by norm_num [splitIntoChunks, splitLoop, chunkSamples, pyInt, mkChunk,
      round2, roundHalfEven, List.replicate])).2
    0 (by norm_num) (by norm_num)

/-- C7 counterexample: with `chunk_duration = 0.35` s at 10 Hz the code's
window is `int(3.5) = 3` samples, while the claimed
`round(chunk_duration * sample_rate)` is 4: on a 4-sample waveform the
code emits two 3-sample windows, so not every chunk payload has the
claimed `round(...)` length. -/
theorem C7_counterexample :
    roundHalfEven ((7/20 : ℚ) * ((10 : ℕ) : ℚ)) = 4
    ∧ splitIntoChunks (7/20) 10 [0, 0, 0, 0]
        = some [⟨[0, 0, 0], 10, 0, 3/10, 3/10⟩, ⟨[0, 0, 0], 10, 3/10, 2/5, 1/10⟩]
    ∧ ¬ (∀ c ∈ ([⟨[0, 0, 0], 10, 0, 3/10, 3/10⟩,
          ⟨[0, 0, 0], 10, 3/10, 2/5, 1/10⟩] : List Chunk),
        c.audio_data.length
          = (roundHalfEven ((7/20 : ℚ) * ((10 : ℕ) : ℚ))).toNat) := by
  refine ⟨by norm_num [roundHalfEven], ?_, ?_⟩
  · have hcs : chunkSamples (7/20) 10 = 3 := by
      have h1 : pyInt ((7/20 : ℚ) * ((10 : ℕ) : ℚ)) = 3 := by
        norm_num [pyInt]
      rw [chunkSamples, h1]
      rfl
    rw [splitIntoChunks, hcs]
    norm_num [splitLoop, mkChunk, round2, roundHalfEven, Nat.min_def,
      List.replicate]
  · intro hall
    have hx := hall ⟨[0, 0, 0], 10, 0, 3/10, 3/10⟩ (by simp)
    rw [show roundHalfEven ((7/20 : ℚ) * ((10 : ℕ) : ℚ)) = 4 from by
      norm_num [roundHalfEven]] at hx
    simp at hx

/-- C7 (amended): for every non-empty waveform, with the code's window
size `chunk_samples = int(chunk_duration * sample_rate)` (integer
truncation — equal to `round(...)` only when the product is an integer)
at least 1, the segmenter emits consecutive non-overlapping windows of
exactly `chunk_samples` payload samples starting at sample 0; reported
start/end times are the 2-decimal roundings of the window boundaries
measured on the unpadded signal, consecutive chunks share their reported
boundary exactly (no gaps, no overlaps), the first chunk starts at 0, and
the last chunk's reported end_time is the true audio duration rounded to
2 decimals — hence within 0.005 s of the true duration, which rounding
may exceed. -/
theorem C7_coverage (cd : ℚ) (sr : ℕ) (audio : List ℚ)
    (hcs : 1 ≤ chunkSamples cd sr) (hne : audio ≠ []) (chunks : List Chunk)
    (hsplit : splitIntoChunks cd sr audio = some chunks) :
    0 < chunks.length
    ∧ (∀ i (h : i < chunks.length),
        (chunks.get ⟨i, h⟩).audio_data.length = chunkSamples cd sr
        ∧ (chunks.get ⟨i, h⟩).start_time
            = round2 (((i * chunkSamples cd sr : ℕ) : ℚ) / (sr : ℚ))
        ∧ (chunks.get ⟨i, h⟩).end_time
            = round2 (((min ((i + 1) * chunkSamples cd sr) audio.length : ℕ) : ℚ)
                / (sr : ℚ)))
    ∧ (∀ h0 : 0 < chunks.length, (chunks.get ⟨0, h0⟩).start_time = 0)
    ∧ (∀ i (h : i + 1 < chunks.length),
        (chunks.get ⟨i, by omega⟩).end_time = (chunks.get ⟨i + 1, h⟩).start_time)
    ∧ (∀ h : chunks.length - 1 < chunks.length,
        (chunks.get ⟨chunks.length - 1, h⟩).end_time
          = round2 ((audio.length : ℚ) / (sr : ℚ))
        ∧ |(chunks.get ⟨chunks.length - 1, h⟩).end_time
            - (audio.length : ℚ) / (sr : ℚ)| ≤ 1/200) := by
  obtain ⟨hlen, hget⟩ := splitIntoChunks_get cd sr audio hcs chunks hsplit
  have hpos : 0 < audio.length := List.length_pos.mpr hne
  have hlenpos : 0 < chunks.length := by
    rw [hlen]
    exact numChunks_pos _ _ hpos
  have hmain : ∀ i (h : i < chunks.length),
      (chunks.get ⟨i, h⟩).audio_data.length = chunkSamples cd sr
      ∧ (chunks.get ⟨i, h⟩).start_time
          = round2 (((i * chunkSamples cd sr : ℕ) : ℚ) / (sr : ℚ))
      ∧ (chunks.get ⟨i, h⟩).end_time
          = round2 (((min ((i + 1) * chunkSamples cd sr) audio.length : ℕ) : ℚ)
              / (sr : ℚ)) := by
    intro i h
    rw [hget i h]
    refine ⟨mkChunk_audio_length _ _ _ _, rfl, ?_⟩
    have hx : (i + 1) * chunkSamples cd sr
        = i * chunkSamples cd sr + chunkSamples cd sr := by ring
    rw [hx]
    rfl
  refine ⟨hlenpos, hmain, ?_, ?_, ?_⟩
  · intro h0
    rw [(hmain 0 h0).2.1]
    norm_num [round2_zero]
  · intro i h
    rw [(hmain i (by omega)).2.2, (hmain (i + 1) h).2.1]
    have hml : (i + 1) * chunkSamples cd sr < audio.length := by
      apply numChunks_mul_lt _ _ _ hcs
      omega
    rw [min_eq_left (by omega)]
  · intro h
    have hend := (hmain (chunks.length - 1) h).2.2
    have hk : numChunksFrom (chunkSamples cd sr) audio.length 0
        = chunks.length - 1 + 1 := by omega
    have h2 := numChunks_total_le (chunkSamples cd sr) audio.length hcs hpos
    rw [hk] at h2
    rw [hend, min_eq_right h2]
    exact ⟨rfl, abs_round2_sub _⟩

theorem C7_witness :
    0 < ([⟨[0, 0, 0, 0, 0, 0], 2, 0, 1, 1⟩] : List Chunk).length :=
  (C7_coverage 3 2 [0, 0] (by norm_num [chunkSamples, pyInt]) (by simp)
    [⟨[0, 0, 0, 0, 0, 0], 2, 0, 1, 1⟩]
    (by norm_num [splitIntoChunks, splitLoop, chunkSamples, pyInt, mkChunk,
      round2, roundHalfEven, List.replicate])).1

/-- C10: when `chunk_samples = int(chunk_duration * sample_rate)` is at
least 1, the chunking loop terminates on every waveform and every emitted
chunk's payload has exactly `chunk_samples` samples (short tails are
right-padded with zeros inside `mkChunk`); when `chunk_samples = 0` and
the waveform is non-empty, the loop position never advances (the next
position is `min(pos + 0, total) = pos`) and splitting does not terminate:
the loop is still running after any number of iterations. -/
theorem C10_termination (cd : ℚ) (sr : ℕ) (audio : List ℚ) :
    (1 ≤ chunkSamples cd sr →
      ∃ chunks, splitIntoChunks cd sr audio = some chunks
        ∧ ∀ c ∈ chunks, c.audio_data.length = chunkSamples cd sr)
    ∧ (chunkSamples cd sr = 0 → audio ≠ [] →
      ∀ fuel, splitLoop (chunkSamples cd sr) sr audio fuel 0 = none) := by
  constructor
  · intro hcs
    refine ⟨_, splitIntoChunks_eq cd sr audio hcs, ?_⟩
    intro c hc
    obtain ⟨i, hi, rfl⟩ := List.mem_map.mp hc
    exact mkChunk_audio_length _ _ _ _
  · intro h0 hne fuel
    rw [h0]
    exact splitLoop_zero_cs sr audio fuel 0 (List.length_pos.mpr hne)

theorem C10_witness :
    splitLoop (chunkSamples 0 2) 2 [0] 5 0 = none :=
  (C10_termination 0 2 [0]).2
    (by
      have h1 : pyInt ((0 : ℚ) * ((2 : ℕ) : ℚ)) = 0 := by norm_num [pyInt]
      rw [chunkSamples, h1]
      rfl)
    (by simp) 5

/-- C8: `detect_changes` emits an event exactly at each position whose
emotion differs from the running previous emotion — equivalently (since
the running previous emotion always equals the preceding prediction's
emotion) at each adjacent pair with differing labels — carrying the new
prediction's start_time and confidence; fewer than 2 predictions, or a
uniform-label sequence of any length, yields no events; and on labels
`[neutral, neutral, happy, happy, sad]` exactly two events are emitted,
`neutral→happy` at the 3rd prediction's start_time and `happy→sad` at the
5th prediction's start_time. -/
theorem C8_detect_changes :
    (∀ l : List Prediction,
      detect_emotion_changes l = (l.zip l.tail).filterMap changeOfPair)
    ∧ (∀ l : List Prediction, l.length < 2 → detect_emotion_changes l = [])
    ∧ (∀ (l : List Prediction) (e : String),
        (∀ r ∈ l, r.emotion = e) → detect_emotion_changes l = [])
    ∧ detect_emotion_changes
        [⟨0, 3, "neutral", 1/2⟩, ⟨3, 6, "neutral", 3/5⟩, ⟨6, 9, "happy", 7/10⟩,
          ⟨9, 12, "happy", 1/2⟩, ⟨12, 15, "sad", 9/10⟩]
      = [⟨6, "neutral", "happy", 7/10⟩, ⟨12, "happy", "sad", 9/10⟩] := by
  refine ⟨detect_changes_eq_zip, ?_, ?_, ?_⟩
  · intro l hl
    rw [detect_emotion_changes.eq_def, if_pos hl]
  · intro l e he
    rw [detect_changes_eq_zip]
    rw [List.filterMap_eq_nil_iff]
    intro p hp
    obtain ⟨h1, h2⟩ := List.of_mem_zip hp
    rw [changeOfPair, he p.1 h1, he p.2 (List.mem_of_mem_tail h2)]
    simp
  · simp [detect_emotion_changes, detectLoop]

theorem C8_witness :
    detect_emotion_changes [] = [] :=
  C8_detect_changes.2.1 [] (by norm_num)

/-- Reformulation of `roundHalfEven` whose conditions do not match the
`a - floor a` simp pattern, for literal evaluation. -/
theorem roundHalfEven_eq (q : ℚ) :
    roundHalfEven q =
      if 2 * q - 2 * ⌊q⌋ < 1 then ⌊q⌋
      else if 1 < 2 * q - 2 * ⌊q⌋ then ⌊q⌋ + 1
      else if 2 ∣ ⌊q⌋ then ⌊q⌋ else ⌊q⌋ + 1 := by
  unfold roundHalfEven
  have h1 : (q - ⌊q⌋ < 1/2) = (2 * q - 2 * ⌊q⌋ < 1) := by
    apply propext
    constructor <;> intro <;> linarith
  have h2 : (1/2 < q - ⌊q⌋) = (1 < 2 * q - 2 * ⌊q⌋) := by
    apply propext
    constructor <;> intro <;> linarith
  simp only [h1, h2]

/-- Concrete evaluation of the statistics loop on a 1 s `happy` and a
2 s `sad` prediction. -/
theorem statsFold_ex2_eval :
    statsFold [⟨0, 1, "happy", 1⟩, ⟨1, 3, "sad", 1⟩]
      = ⟨[("happy", 1), ("sad", 1)], [("happy", 1), ("sad", 2)], 3⟩ := by
  simp [statsFold, statsStep, dictSet, dictGet]
  norm_num

/-- Concrete evaluation of `calculate_statistics` on the same input:
`happy` has 1 of 3 seconds, so its returned percentage is
`round2(100/3) = 33.33`. -/
theorem calculate_statistics_ex2_eval :
    calculate_statistics [⟨0, 1, "happy", 1⟩, ⟨1, 3, "sad", 1⟩]
      = ⟨3, [("happy", 1), ("sad", 1)], [("happy", 1), ("sad", 2)],
          [("happy", 3333/100), ("sad", 6667/100)], "sad"⟩ := by
  simp only [calculate_statistics, statsFold_ex2_eval]
  norm_num [pyMaxBySnd, pickMax, round2, roundHalfEven_eq, List.isEmpty]

/-- C9 counterexample: on a 1 s `happy` plus 2 s `sad` input the returned
`emotion_percentages["happy"]` is the rounded `33.33`, not
`emotion_durations["happy"] / total_duration * 100 = 100/3`: the claimed
exact equation fails on the returned (2-decimal-rounded) map. -/
theorem C9_counterexample :
    ¬ (dictGet (calculate_statistics
          [⟨0, 1, "happy", 1⟩, ⟨1, 3, "sad", 1⟩]).emotion_percentages "happy" 0
        = dictGet (calculate_statistics
            [⟨0, 1, "happy", 1⟩, ⟨1, 3, "sad", 1⟩]).emotion_durations "happy" 0
          / (calculate_statistics
              [⟨0, 1, "happy", 1⟩, ⟨1, 3, "sad", 1⟩]).total_duration * 100) := by
  rw [calculate_statistics_ex2_eval]
  simp [dictGet]
  norm_num

/-- Concrete evaluation of `calculate_statistics` on the spec §8 example:
`happy` for 6 s, `sad` for 3 s, `neutral` for 1 s. -/
theorem calculate_statistics_ex4_eval :
    calculate_statistics
        [⟨0, 3, "happy", 1⟩, ⟨3, 6, "happy", 1⟩, ⟨6, 9, "sad", 1⟩, ⟨9, 10, "neutral", 1⟩]
      = ⟨10, [("happy", 2), ("sad", 1), ("neutral", 1)],
          [("happy", 6), ("sad", 3), ("neutral", 1)],
          [("happy", 60), ("sad", 30), ("neutral", 10)], "happy"⟩ := by
  have hfold : statsFold
      [⟨0, 3, "happy", 1⟩, ⟨3, 6, "happy", 1⟩, ⟨6, 9, "sad", 1⟩, ⟨9, 10, "neutral", 1⟩]
      = ⟨[("happy", 2), ("sad", 1), ("neutral", 1)],
          [("happy", 6), ("sad", 3), ("neutral", 1)], 10⟩ := by
    simp [statsFold, statsStep, dictSet, dictGet]
    norm_num
  simp only [calculate_statistics, hfold]
  norm_num [pyMaxBySnd, pickMax, round2, roundHalfEven_eq, List.isEmpty]

/-- C9 (amended): `compute_statistics` returns
`emotion_percentages[e] = round2(emotion_durations[e] / total_duration * 100)`
computed from the unrounded duration map (0 for every label when
`total_duration = 0`), and `dominant_emotion` is the label with maximum
cumulative duration with ties broken by first-seen insertion order in the
duration map (`"Unknown"` when the prediction sequence is empty); on
predictions covering happy 6 s, sad 3 s, neutral 1 s it returns dominant
`happy` and percentages 60.0 / 30.0 / 10.0. -/
theorem C9_statistics :
    (∀ results : List Prediction,
      (∀ e : String,
        dictGet (calculate_statistics results).emotion_percentages e 0
          = round2 (if 0 < (statsFold results).total
              then dictGet (statsFold results).durations e 0
                  / (statsFold results).total * 100
              else 0))
      ∧ ((statsFold results).total = 0 →
          ∀ e : String,
            dictGet (calculate_statistics results).emotion_percentages e 0 = 0)
      ∧ (results = [] →
          (calculate_statistics results).dominant_emotion = "Unknown")
      ∧ (results ≠ [] →
          IsFirstMaxKey (statsFold results).durations
            (calculate_statistics results).dominant_emotion))
    ∧ (calculate_statistics
          [⟨0, 3, "happy", 1⟩, ⟨3, 6, "happy", 1⟩, ⟨6, 9, "sad", 1⟩,
            ⟨9, 10, "neutral", 1⟩]).dominant_emotion = "happy"
    ∧ (calculate_statistics
          [⟨0, 3, "happy", 1⟩, ⟨3, 6, "happy", 1⟩, ⟨6, 9, "sad", 1⟩,
            ⟨9, 10, "neutral", 1⟩]).emotion_percentages
        = [("happy", 60), ("sad", 30), ("neutral", 10)] := by
  refine ⟨?_, ?_, ?_⟩
  · intro results
    have hA : ∀ e : String,
        dictGet (calculate_statistics results).emotion_percentages e 0
          = round2 (if 0 < (statsFold results).total
              then dictGet (statsFold results).durations e 0
                  / (statsFold results).total * 100
              else 0) := by
      intro e
      have hpct : (calculate_statistics results).emotion_percentages
          = (statsFold results).durations.map
              (fun p => (p.1, round2 (if 0 < (statsFold results).total
                  then p.2 / (statsFold results).total * 100 else 0))) := by
        simp only [calculate_statistics, List.map_map]
        rfl
      rw [hpct]
      have hkey := dictGet_mapVals
        (fun v => round2 (if 0 < (statsFold results).total
            then v / (statsFold results).total * 100 else 0))
        (statsFold results).durations e 0
      have hg0 : round2 (if 0 < (statsFold results).total
          then 0 / (statsFold results).total * 100 else 0) = 0 := by
        split_ifs <;> norm_num [round2_zero]
      rw [hg0] at hkey
      exact hkey
    refine ⟨hA, ?_, ?_, ?_⟩
    · intro ht e
      rw [hA e, if_neg (by rw [ht]; exact lt_irrefl 0)]
      exact round2_zero
    · intro hnil
      subst hnil
      simp [calculate_statistics, statsFold]
    · intro hne
      have hd : (statsFold results).durations ≠ [] :=
        foldl_statsStep_durations_ne_nil results _ (Or.inr hne)
      cases hdur : (statsFold results).durations with
      | nil => exact absurd hdur hd
      | cons p rest =>
        have hdom : (calculate_statistics results).dominant_emotion
            = (pyMaxBySnd ("", 0) (p :: rest)).1 := by
          simp only [calculate_statistics, hdur, List.isEmpty_cons,
            Bool.false_eq_true, if_false]
        rw [hdom]
        exact pyMaxBySnd_isFirstMaxKey _ p rest
  · rw [calculate_statistics_ex4_eval]
  · rw [calculate_statistics_ex4_eval]

theorem C9_witness :
    (calculate_statistics []).dominant_emotion = "Unknown" :=
  ((C9_statistics.1 []).2.2.1) rfl
